import Mathlib

/-!
Verification of the pedal connection manager and report decoder
(src/frontend/src-tauri/src/lib.rs).

The embedding follows the source:
* `decode` is the inline bit-diff decoder of `poll_pedal` (the three
  `if (current & k) != (last & k)` blocks, k = 1, 2, 4, emitted in the
  fixed order left, center, right).
* `wstep` is one step of the background worker spawned in `run`: a scan
  iteration of the outer loop while disconnected, or one `read_timeout`
  outcome of the `poll_pedal` loop while a session is live.  The shared
  `Arc<Mutex<bool>>` is the `connected` field together with a `poisoned`
  flag (a std mutex is poisoned only when a thread panics while holding
  it; `lock().unwrap()` panics exactly on a poisoned mutex, which the
  embedding surfaces as `Except.error .lockPoisoned`).
* `buf0` models `buf[0]`: on `Ok(n)` with data the buffer is overwritten,
  on a timeout (`Ok(0)`) it is left untouched, and the source matches
  both with `Ok(_)`.
* Sink delivery results are discarded by the source (`let _ = handle.emit`),
  so `wstep` receives the delivery outcome `sinkOk` and ignores it.
-/

inductive Switch
  | left
  | center
  | right
deriving DecidableEq

inductive Dir
  | pressed
  | released
deriving DecidableEq

structure PedalEvent where
  sw : Switch
  dir : Dir
deriving DecidableEq

/-- Source comment in `poll_pedal`: 1 = Left, 2 = Center, 4 = Right. -/
def bitOf : Switch → Nat
  | .left => 1
  | .center => 2
  | .right => 4

/-- Bit index of each switch inside the first report byte. -/
def switchIndex : Switch → Nat
  | .left => 0
  | .center => 1
  | .right => 2

/-- The inline decoder of `poll_pedal`: for each switch bit k in 1, 2, 4,
if `(current & k) != (last & k)` emit pressed when `(current & k) > 0`
and released otherwise, in the fixed order left, center, right. -/
def decode (last current : Nat) : List PedalEvent :=
  (if current &&& 1 ≠ last &&& 1 then
    [⟨.left, if current &&& 1 > 0 then .pressed else .released⟩]
  else []) ++
  (if current &&& 2 ≠ last &&& 2 then
    [⟨.center, if current &&& 2 > 0 then .pressed else .released⟩]
  else []) ++
  (if current &&& 4 ≠ last &&& 4 then
    [⟨.right, if current &&& 4 > 0 then .pressed else .released⟩]
  else [])

/-- `decode` on the three switch bits presented as booleans; used only as a
proof device to reduce statements about `decode` to finite case analysis. -/
def decodeB (p0 p1 p2 c0 c1 c2 : Bool) : List PedalEvent :=
  (if c0 ≠ p0 then [⟨.left, if c0 then .pressed else .released⟩] else []) ++
  (if c1 ≠ p1 then [⟨.center, if c1 then .pressed else .released⟩] else []) ++
  (if c2 ≠ p2 then [⟨.right, if c2 then .pressed else .released⟩] else [])

/-- The switches whose bit changed between the two masks, in the fixed
left, center, right order. -/
def diffSwitches (p c : Nat) : List Switch :=
  [Switch.left, Switch.center, Switch.right].filter
    (fun s => p.testBit (switchIndex s) != c.testBit (switchIndex s))

/-- Events a session emits from decoder state `last` on a list of report
masks: exactly the `poll_pedal` data path (`if current_state != last_state`
run the decoder and update `last_state`, else do nothing). -/
def sessionEvents : Nat → List Nat → List PedalEvent
  | _, [] => []
  | last, m :: ms =>
    if m ≠ last then decode last m ++ sessionEvents m ms
    else sessionEvents last ms

/-- Directions of the events concerning one switch, in emission order. -/
def dirsFor (s : Switch) (evs : List PedalEvent) : List Dir :=
  (evs.filter (fun e => e.sw == s)).map (fun e => e.dir)

def flipDir : Dir → Dir
  | .pressed => .released
  | .released => .pressed

/-- `altFrom d l` holds when `l` is the alternating sequence
`[d, flipDir d, d, ...]` up to its length. -/
def altFrom : Dir → List Dir → Bool
  | _, [] => true
  | d, e :: rest => e == d && altFrom (flipDir d) rest

/-- Direction the next event for a switch must have given the current
decoder state: pressed while its bit is clear, released while set. -/
def expectedDir (last : Nat) (s : Switch) : Dir :=
  if last.testBit (switchIndex s) then .released else .pressed

-- ----------------------------------------------------------------------
-- Worker model
-- ----------------------------------------------------------------------

/-- Observable actions of the worker thread, in program order. -/
inductive Act
  | found
  | disconnected
  | action (e : PedalEvent)
  | sleepSecs (n : Nat)
deriving DecidableEq

inductive Phase
  | scanning
  | inSession
deriving DecidableEq

structure WState where
  phase : Phase
  connected : Bool
  poisoned : Bool
  lastState : Nat
  buf0 : Nat
  trace : List Act
deriving DecidableEq

/-- Outcome of one scan iteration of the outer loop in `run`. -/
inductive ScanResult
  | apiError
  | notFound
  | foundOpenFail
  | foundOpenOk
deriving DecidableEq

/-- Outcome of one `device.read_timeout(&mut buf, 100)` call. -/
inductive ReadOutcome
  | data (b : Nat)
  | timeout
  | ioError
deriving DecidableEq

inductive WInput
  | scan (r : ScanResult)
  | read (r : ReadOutcome)
deriving DecidableEq

inductive Panic
  | lockPoisoned
deriving DecidableEq

/-- One step of the worker.  `sinkOk` is the delivery outcome of any sink
emission performed during the step; the source discards it with
`let _ = handle.emit(..)`, so the step never looks at it. -/
def wstep (s : WState) (i : WInput) (sinkOk : Bool) : Except Panic WState :=
  match s.phase, i with
  | .scanning, .scan r =>
    match r with
    | .apiError => .ok { s with trace := s.trace ++ [.sleepSecs 5] }
    | .notFound => .ok { s with trace := s.trace ++ [.sleepSecs 5] }
    | .foundOpenFail =>
      if s.poisoned then .error .lockPoisoned
      else .ok { s with connected := true,
                        trace := s.trace ++ [.found, .sleepSecs 5] }
    | .foundOpenOk =>
      if s.poisoned then .error .lockPoisoned
      else .ok { s with connected := true, phase := .inSession,
                        lastState := 0, buf0 := 0,
                        trace := s.trace ++ [.found] }
  | .inSession, .read r =>
    match r with
    | .data b =>
      if b ≠ s.lastState then
        .ok { s with buf0 := b, lastState := b,
                     trace := s.trace ++ (decode s.lastState b).map .action }
      else .ok { s with buf0 := b }
    | .timeout =>
      if s.buf0 ≠ s.lastState then
        .ok { s with lastState := s.buf0,
                     trace := s.trace ++ (decode s.lastState s.buf0).map .action }
      else .ok s
    | .ioError =>
      if s.poisoned then .error .lockPoisoned
      else .ok { s with phase := .scanning, connected := false,
                        trace := s.trace ++ [.disconnected, .sleepSecs 5] }
  | _, _ => .ok s

/-- State at process start: flag defaulted to false, worker about to scan. -/
def winit : WState :=
  { phase := .scanning, connected := false, poisoned := false,
    lastState := 0, buf0 := 0, trace := [] }

/-- Run the worker over a list of inputs paired with sink outcomes. -/
def wrun (s : WState) : List (WInput × Bool) → Except Panic WState
  | [] => .ok s
  | (i, k) :: rest =>
    match wstep s i k with
    | .ok s2 => wrun s2 rest
    | .error e => .error e

/-- The `is_pedal_connected` command: `*state.0.lock().unwrap()`.
Panics (surfaced as `Except.error`) exactly when the mutex is poisoned. -/
def is_pedal_connected (s : WState) : Except Panic Bool :=
  if s.poisoned then .error .lockPoisoned else .ok s.connected

-- ----------------------------------------------------------------------
-- Decoder lemmas
-- ----------------------------------------------------------------------

theorem and_one_toNat (n : Nat) : n &&& 1 = (n.testBit 0).toNat := by
  simpa using Nat.and_two_pow n 0

theorem and_two_toNat (n : Nat) : n &&& 2 = (n.testBit 1).toNat * 2 := by
  simpa using Nat.and_two_pow n 1

theorem and_four_toNat (n : Nat) : n &&& 4 = (n.testBit 2).toNat * 4 := by
  simpa using Nat.and_two_pow n 2

theorem decode_eq_decodeB (p c : Nat) :
    decode p c =
      decodeB (p.testBit 0) (p.testBit 1) (p.testBit 2)
        (c.testBit 0) (c.testBit 1) (c.testBit 2) := by
  simp only [decode, decodeB, and_one_toNat, and_two_toNat, and_four_toNat]
  cases p.testBit 0 <;> cases p.testBit 1 <;> cases p.testBit 2 <;>
    cases c.testBit 0 <;> cases c.testBit 1 <;> cases c.testBit 2 <;> rfl

theorem decodeB_refl (b0 b1 b2 : Bool) : decodeB b0 b1 b2 b0 b1 b2 = [] := by
  cases b0 <;> cases b1 <;> cases b2 <;> rfl

theorem testBit_and_seven (n : Nat) (i : Nat) (hi : i < 3) :
    (n &&& 7).testBit i = n.testBit i := by
  rw [Nat.testBit_and]
  have h7 : Nat.testBit 7 i = true := by interval_cases i <;> decide
  rw [h7, Bool.and_true]

/-- C7: for every pair of equal masks, the decoder returns the empty
sequence, so decoding an unchanged report is safe and re-emits nothing. -/
theorem decode_self_empty (p : Nat) : decode p p = [] := by
  simp [decode]

/-- C6: bits outside the three switch bits are ignored: `decode` only
looks at the masks modulo bit 2, and a report differing from the previous
one only in bits 3 to 7 decodes to no events at all. -/
theorem decode_ignores_high_bits (p c : Nat) :
    decode p c = decode (p &&& 7) (c &&& 7) ∧
      (p &&& 7 = c &&& 7 → decode p c = []) := by
  constructor
  · rw [decode_eq_decodeB, decode_eq_decodeB,
      testBit_and_seven p 0 (by omega), testBit_and_seven p 1 (by omega),
      testBit_and_seven p 2 (by omega), testBit_and_seven c 0 (by omega),
      testBit_and_seven c 1 (by omega), testBit_and_seven c 2 (by omega)]
  · intro h
    have h0 : p.testBit 0 = c.testBit 0 := by
      rw [← testBit_and_seven p 0 (by omega), ← testBit_and_seven c 0 (by omega), h]
    have h1 : p.testBit 1 = c.testBit 1 := by
      rw [← testBit_and_seven p 1 (by omega), ← testBit_and_seven c 1 (by omega), h]
    have h2 : p.testBit 2 = c.testBit 2 := by
      rw [← testBit_and_seven p 2 (by omega), ← testBit_and_seven c 2 (by omega), h]
    rw [decode_eq_decodeB, h0, h1, h2, decodeB_refl]

/-- C3 (counterexample to the claim as stated): the byte masks 0x00 and
0x08 differ in exactly one bit (bit 3), yet `decode` returns no event at
all instead of exactly one. -/
theorem single_bit_no_event :
    (0 : Nat) ^^^ 8 = 2 ^ 3 ∧ (0 : Nat) < 256 ∧ (8 : Nat) < 256 ∧
      decode 0 8 = [] := by
  refine ⟨by decide, by decide, by decide, by decide⟩

theorem decodeB_single_left : ∀ p0 c0 p1 p2 : Bool, p0 ≠ c0 →
    decodeB p0 p1 p2 c0 p1 p2 =
      [⟨.left, if c0 then .pressed else .released⟩] := by decide

theorem decodeB_single_center : ∀ p1 c1 p0 p2 : Bool, p1 ≠ c1 →
    decodeB p0 p1 p2 p0 c1 p2 =
      [⟨.center, if c1 then .pressed else .released⟩] := by decide

theorem decodeB_single_right : ∀ p2 c2 p0 p1 : Bool, p2 ≠ c2 →
    decodeB p0 p1 p2 p0 p1 c2 =
      [⟨.right, if c2 then .pressed else .released⟩] := by decide

/-- C3 (amended): whenever exactly one of the three switch bits differs
between the masks, `decode` returns exactly the one event for that switch,
pressed when its bit transitioned to 1 and released when it transitioned
to 0. -/
theorem decode_single_switch_bit (p c : Nat) (s : Switch)
    (hdiff : p.testBit (switchIndex s) ≠ c.testBit (switchIndex s))
    (hsame : ∀ t, t ≠ s → p.testBit (switchIndex t) = c.testBit (switchIndex t)) :
    decode p c =
      [⟨s, if c.testBit (switchIndex s) then .pressed else .released⟩] := by
  rw [decode_eq_decodeB]
  cases s with
  | left =>
    have h1 := hsame .center (by decide)
    have h2 := hsame .right (by decide)
    simp only [switchIndex] at hdiff h1 h2 ⊢
    rw [← h1, ← h2]
    exact decodeB_single_left _ _ _ _ hdiff
  | center =>
    have h1 := hsame .left (by decide)
    have h2 := hsame .right (by decide)
    simp only [switchIndex] at hdiff h1 h2 ⊢
    rw [← h1, ← h2]
    exact decodeB_single_center _ _ _ _ hdiff
  | right =>
    have h1 := hsame .left (by decide)
    have h2 := hsame .center (by decide)
    simp only [switchIndex] at hdiff h1 h2 ⊢
    rw [← h1, ← h2]
    exact decodeB_single_right _ _ _ _ hdiff

/-- Witness for the amended C3 at masks 0x00 and 0x01 (scenario 1). -/
theorem decode_single_switch_bit_witness :
    decode 0 1 = [⟨Switch.left, Dir.pressed⟩] := by
  have h := decode_single_switch_bit 0 1 .left (by decide)
    (fun t ht => by cases t <;> first | exact absurd rfl ht | decide)
  simpa using h

theorem decode_map_sw (p c : Nat) :
    (decode p c).map PedalEvent.sw = diffSwitches p c := by
  rw [decode_eq_decodeB]
  simp only [diffSwitches, List.filter, switchIndex]
  cases p.testBit 0 <;> cases p.testBit 1 <;> cases p.testBit 2 <;>
    cases c.testBit 0 <;> cases c.testBit 1 <;> cases c.testBit 2 <;> rfl

/-- Witness for C6 at masks 0x08 and 0x10, which differ only in bits 3-7:
the decoder emits nothing. -/
theorem decode_ignores_high_bits_witness :
    (8 : Nat) &&& 7 = 16 &&& 7 ∧ decode 8 16 = [] :=
  ⟨by decide, (decode_ignores_high_bits 8 16).2 (by decide)⟩

theorem diffSwitches_self (p : Nat) : diffSwitches p p = [] := by
  simp [diffSwitches]

/-- C5: when two or more of the switch bits differ between consecutive
masks, the decoded events are exactly the changed switches in the fixed
left, center, right order, and a data read publishes them to the sink in
exactly that order, appended unchanged to the action trace. -/
theorem decode_multi_ordered (p c : Nat)
    (hmulti : 2 ≤ (diffSwitches p c).length) :
    (decode p c).map PedalEvent.sw = diffSwitches p c ∧
      ∀ (s : WState) (k : Bool), s.phase = .inSession → s.lastState = p →
        wstep s (.read (.data c)) k =
          .ok { s with buf0 := c, lastState := c,
                       trace := s.trace ++ (decode p c).map .action } := by
  refine ⟨decode_map_sw p c, ?_⟩
  intro s k hphase hlast
  have hne : c ≠ p := by
    intro h
    subst h
    rw [diffSwitches_self] at hmulti
    simp at hmulti
  obtain ⟨ph, conn, poi, last, b0, tr⟩ := s
  simp only at hphase hlast
  subst hphase
  subst hlast
  simp [wstep, hne]

/-- Witness for C5 at masks 0x07 and 0x00 (scenario 3): all three switches
release, in left, center, right order, and the step appends them in that
order. -/
theorem decode_multi_ordered_witness :
    2 ≤ (diffSwitches 7 0).length ∧
    (decode 7 0).map PedalEvent.sw =
      [Switch.left, Switch.center, Switch.right] ∧
    wstep { phase := .inSession, connected := true, poisoned := false,
            lastState := 7, buf0 := 7, trace := [] } (.read (.data 0)) true =
      .ok { phase := .inSession, connected := true, poisoned := false,
            lastState := 0, buf0 := 0,
            trace := [.action ⟨.left, .released⟩, .action ⟨.center, .released⟩,
                      .action ⟨.right, .released⟩] } := by
  have h := decode_multi_ordered 7 0 (by decide)
  refine ⟨by decide, ?_, ?_⟩
  · rw [h.1]
    decide
  · have h2 := h.2
      { phase := .inSession, connected := true, poisoned := false,
        lastState := 7, buf0 := 7, trace := [] }
      true rfl rfl
    simpa using h2

-- ----------------------------------------------------------------------
-- Worker lemmas
-- ----------------------------------------------------------------------

theorem wstep_buf_eq (s : WState) (i : WInput) (k : Bool) (s2 : WState)
    (hinv : s.buf0 = s.lastState) (h : wstep s i k = .ok s2) :
    s2.buf0 = s2.lastState := by
  obtain ⟨ph, conn, poi, last, b0, tr⟩ := s
  simp only at hinv
  subst hinv
  cases ph <;> cases i <;> rename_i r <;> cases r <;>
    simp only [wstep] at h <;>
    (try split at h) <;>
    (try cases h) <;>
    (try rfl) <;>
    simp_all

theorem wrun_buf_eq (inputs : List (WInput × Bool)) :
    ∀ (s s2 : WState), s.buf0 = s.lastState →
      wrun s inputs = .ok s2 → s2.buf0 = s2.lastState := by
  induction inputs with
  | nil =>
    intro s s2 hinv h
    simp only [wrun] at h
    cases h
    exact hinv
  | cons p rest ih =>
    intro s s2 hinv h
    obtain ⟨i, k⟩ := p
    simp only [wrun] at h
    cases hw : wstep s i k with
    | ok s1 =>
      rw [hw] at h
      exact ih s1 s2 (wstep_buf_eq s i k s1 hinv hw) h
    | error e =>
      rw [hw] at h
      cases h

/-- C2: in every reachable worker state, a read that times out with no
data is a no-op: the resulting state is unchanged, so no decode happens,
no pedal-action event is appended, the connection flag is untouched and
the read loop keeps looping. -/
theorem timeout_is_noop (inputs : List (WInput × Bool)) (s : WState) (k : Bool)
    (hrun : wrun winit inputs = .ok s) (hphase : s.phase = .inSession) :
    wstep s (.read .timeout) k = .ok s := by
  have hinv : s.buf0 = s.lastState := wrun_buf_eq inputs winit s rfl hrun
  obtain ⟨ph, conn, poi, last, b0, tr⟩ := s
  simp only at hinv hphase
  subst hphase
  simp [wstep, hinv]

/-- Witness for C2: the state reached by one successful scan-and-open. -/
theorem timeout_is_noop_witness :
    wstep { phase := .inSession, connected := true, poisoned := false,
            lastState := 0, buf0 := 0, trace := [.found] }
        (.read .timeout) true =
      .ok { phase := .inSession, connected := true, poisoned := false,
            lastState := 0, buf0 := 0, trace := [.found] } :=
  timeout_is_noop [(.scan .foundOpenOk, true)] _ true rfl rfl

/-- C4: a hard read error during a connected session exits the read loop,
clears the shared flag, publishes exactly one PedalDisconnected
notification, and the 5-second backoff precedes any further scanning. -/
theorem read_error_disconnects (s : WState) (k : Bool)
    (hphase : s.phase = .inSession) (hconn : s.connected = true)
    (hpoi : s.poisoned = false) :
    wstep s (.read .ioError) k =
      .ok { s with phase := .scanning, connected := false,
                   trace := s.trace ++ [.disconnected, .sleepSecs 5] } := by
  obtain ⟨ph, conn, poi, last, b0, tr⟩ := s
  simp only at hphase hconn hpoi
  subst hphase
  subst hconn
  subst hpoi
  simp [wstep]

/-- Witness for C4: a read error in a live session state. -/
theorem read_error_disconnects_witness :
    wstep { phase := .inSession, connected := true, poisoned := false,
            lastState := 0, buf0 := 0, trace := [.found] }
        (.read .ioError) true =
      .ok { phase := .scanning, connected := false, poisoned := false,
            lastState := 0, buf0 := 0,
            trace := [.found, .disconnected, .sleepSecs 5] } := by
  have h := read_error_disconnects
    { phase := .inSession, connected := true, poisoned := false,
      lastState := 0, buf0 := 0, trace := [.found] }
    true rfl rfl rfl
  simpa using h

/-- C1: contrary to the claim, a scan that finds the pedal but fails to
open it still flips the shared flag to true and still publishes a
PedalFound notification, so `is_pedal_connected` reports true before any
successful open.  This evaluates the code on that failing input. -/
theorem open_fail_marks_connected :
    wstep winit (.scan .foundOpenFail) true =
      .ok { phase := .scanning, connected := true, poisoned := false,
            lastState := 0, buf0 := 0, trace := [.found, .sleepSecs 5] } ∧
    is_pedal_connected
        { phase := .scanning, connected := true, poisoned := false,
          lastState := 0, buf0 := 0, trace := [.found, .sleepSecs 5] } =
      .ok true := by
  exact ⟨rfl, rfl⟩

theorem wstep_no_panic (s : WState) (i : WInput) (k : Bool)
    (hpoi : s.poisoned = false) :
    ∃ s2, wstep s i k = .ok s2 ∧ s2.poisoned = false := by
  obtain ⟨ph, conn, poi, last, b0, tr⟩ := s
  simp only at hpoi
  subst hpoi
  cases ph <;> cases i <;> rename_i r <;> cases r <;>
    simp only [wstep] <;>
    (try split) <;>
    first
      | exact ⟨_, rfl, rfl⟩
      | simp_all

theorem wrun_no_panic (inputs : List (WInput × Bool)) :
    ∀ s : WState, s.poisoned = false →
      ∃ s2, wrun s inputs = .ok s2 ∧ s2.poisoned = false := by
  induction inputs with
  | nil =>
    intro s hpoi
    exact ⟨s, rfl, hpoi⟩
  | cons p rest ih =>
    intro s hpoi
    obtain ⟨i, k⟩ := p
    obtain ⟨s1, hw, hpoi1⟩ := wstep_no_panic s i k hpoi
    obtain ⟨s2, hr, hpoi2⟩ := ih s1 hpoi1
    refine ⟨s2, ?_, hpoi2⟩
    simp only [wrun, hw]
    exact hr

/-- C9: from process start, no sequence of scan outcomes, read outcomes
and sink-delivery outcomes makes the worker loop panic, and the
`is_pedal_connected` query always returns the flag without panicking:
every failure path ends in a normal state transition or a retry. -/
theorem core_never_panics (inputs : List (WInput × Bool)) :
    ∃ s, wrun winit inputs = .ok s ∧ is_pedal_connected s = .ok s.connected := by
  obtain ⟨s, hr, hpoi⟩ := wrun_no_panic inputs winit rfl
  exact ⟨s, hr, by simp [is_pedal_connected, hpoi]⟩

theorem decode_from_zero (m : Nat) :
    decode 0 m = (diffSwitches 0 m).map (fun t => (⟨t, .pressed⟩ : PedalEvent)) := by
  rw [decode_eq_decodeB]
  simp only [diffSwitches, List.filter, switchIndex, Nat.zero_testBit]
  cases m.testBit 0 <;> cases m.testBit 1 <;> cases m.testBit 2 <;> rfl

theorem mem_decode_from_zero (m : Nat) (sw : Switch)
    (h : m.testBit (switchIndex sw) = true) :
    (⟨sw, .pressed⟩ : PedalEvent) ∈ decode 0 m := by
  rw [decode_from_zero]
  refine List.mem_map.mpr ⟨sw, List.mem_filter.mpr ⟨?_, ?_⟩, rfl⟩
  · cases sw <;> simp
  · simp [h, Nat.zero_testBit]

/-- C8: opening a session resets the decoder state to zero, so when the
device is already holding a switch at connect time, the first report whose
mask differs from zero immediately yields the pressed events for the held
switches — all decoded events are 0-to-1 transitions. -/
theorem session_reset_first_report (s : WState) (k1 k2 : Bool) (m : Nat)
    (sw : Switch) (hphase : s.phase = .scanning) (hpoi : s.poisoned = false)
    (hheld : m.testBit (switchIndex sw) = true) :
    ∃ s1, wstep s (.scan .foundOpenOk) k1 = .ok s1 ∧
      s1.lastState = 0 ∧ s1.buf0 = 0 ∧ s1.phase = .inSession ∧
      wstep s1 (.read (.data m)) k2 =
        .ok { s1 with buf0 := m, lastState := m,
                      trace := s1.trace ++ (decode 0 m).map .action } ∧
      decode 0 m = (diffSwitches 0 m).map (fun t => ⟨t, .pressed⟩) ∧
      (⟨sw, .pressed⟩ : PedalEvent) ∈ decode 0 m := by
  have hm0 : m ≠ 0 := by
    intro h0
    subst h0
    simp [Nat.zero_testBit] at hheld
  obtain ⟨ph, conn, poi, last, b0, tr⟩ := s
  simp only at hphase hpoi
  subst hphase
  subst hpoi
  refine ⟨{ phase := .inSession, connected := true, poisoned := false,
            lastState := 0, buf0 := 0, trace := tr ++ [.found] },
          by simp [wstep], rfl, rfl, rfl, ?_,
          decode_from_zero m, mem_decode_from_zero m sw hheld⟩
  simp [wstep, hm0]

/-- Witness for C8: left switch held (mask 0x01) when the pedal connects. -/
theorem session_reset_first_report_witness :
    ∃ s1, wstep winit (.scan .foundOpenOk) true = .ok s1 ∧
      s1.lastState = 0 ∧ s1.buf0 = 0 ∧ s1.phase = .inSession ∧
      wstep s1 (.read (.data 1)) true =
        .ok { s1 with buf0 := 1, lastState := 1,
                      trace := s1.trace ++ (decode 0 1).map .action } ∧
      decode 0 1 = (diffSwitches 0 1).map (fun t => ⟨t, .pressed⟩) ∧
      (⟨.left, .pressed⟩ : PedalEvent) ∈ decode 0 1 :=
  session_reset_first_report winit true true 1 .left rfl rfl (by decide)

theorem dirsFor_append (s : Switch) (a b : List PedalEvent) :
    dirsFor s (a ++ b) = dirsFor s a ++ dirsFor s b := by
  simp [dirsFor, List.filter_append]

theorem dirsFor_decodeB_left : ∀ p0 p1 p2 c0 c1 c2 : Bool,
    dirsFor .left (decodeB p0 p1 p2 c0 c1 c2) =
      if p0 = c0 then [] else [if c0 then .pressed else .released] := by decide

theorem dirsFor_decodeB_center : ∀ p0 p1 p2 c0 c1 c2 : Bool,
    dirsFor .center (decodeB p0 p1 p2 c0 c1 c2) =
      if p1 = c1 then [] else [if c1 then .pressed else .released] := by decide

theorem dirsFor_decodeB_right : ∀ p0 p1 p2 c0 c1 c2 : Bool,
    dirsFor .right (decodeB p0 p1 p2 c0 c1 c2) =
      if p2 = c2 then [] else [if c2 then .pressed else .released] := by decide

theorem dirsFor_decode (s : Switch) (p c : Nat) :
    dirsFor s (decode p c) =
      if p.testBit (switchIndex s) = c.testBit (switchIndex s) then []
      else [if c.testBit (switchIndex s) then .pressed else .released] := by
  rw [decode_eq_decodeB]
  cases s with
  | left => exact dirsFor_decodeB_left _ _ _ _ _ _
  | center => exact dirsFor_decodeB_center _ _ _ _ _ _
  | right => exact dirsFor_decodeB_right _ _ _ _ _ _

theorem altFrom_sessionEvents (s : Switch) (masks : List Nat) :
    ∀ last : Nat,
      altFrom (expectedDir last s) (dirsFor s (sessionEvents last masks)) = true := by
  induction masks with
  | nil => intro last; rfl
  | cons m ms ih =>
    intro last
    by_cases hm : m = last
    · subst hm
      simpa [sessionEvents] using ih m
    · rw [show sessionEvents last (m :: ms) = decode last m ++ sessionEvents m ms
          from if_pos hm]
      rw [dirsFor_append, dirsFor_decode]
      by_cases hb : last.testBit (switchIndex s) = m.testBit (switchIndex s)
      · rw [if_pos hb, List.nil_append]
        have he : expectedDir m s = expectedDir last s := by
          simp [expectedDir, hb]
        rw [← he]
        exact ih m
      · rw [if_neg hb, List.singleton_append]
        simp only [altFrom]
        have hd : (if m.testBit (switchIndex s) then Dir.pressed else .released) =
            expectedDir last s := by
          cases hl : last.testBit (switchIndex s) <;>
            cases hmb : m.testBit (switchIndex s) <;>
            simp_all [expectedDir]
        have hf : flipDir (expectedDir last s) = expectedDir m s := by
          cases hl : last.testBit (switchIndex s) <;>
            cases hmb : m.testBit (switchIndex s) <;>
            simp_all [expectedDir, flipDir]
        rw [hd, hf]
        simp [ih m]

/-- C10: within one session (decoder state starting at zero, fed any mask
sequence), the events for each individual switch strictly alternate in
direction beginning with pressed: never two consecutive equal directions
for the same switch. -/
theorem session_per_switch_alternation (masks : List Nat) (s : Switch) :
    altFrom .pressed (dirsFor s (sessionEvents 0 masks)) = true := by
  have h := altFrom_sessionEvents s masks 0
  have he : expectedDir 0 s = .pressed := by
    simp [expectedDir, Nat.zero_testBit]
  rwa [he] at h
